import Mathlib

/-!
Verification of the LiteEth packetizer (`src/liteeth/generic/packetizer.py`).

The component is a streaming header-insertion framer: `_encode_header` packs
named metadata fields into a `header_length*8`-bit vector, and a three-state
FSM (IDLE / SEND_HEADER / COPY) emits that vector one `dw`-bit word at a time
through a shift register before forwarding the payload words verbatim.

The embedding below is a shallow one.  Signals of width `n` are `Nat` values
taken modulo `2^n` where the hardware truncates; one simulation tick applies
the combinational block (`comb`) to the current registers and inputs, then
the synchronous block (`applySync`).  A run harness presents an upstream
frame as a queue of words (held stable until acknowledged, as the stream
contract requires) and records every word accepted by the downstream side.
-/

/-- One entry of the `header_type` dictionary handed to `LiteEthPacketizer`:
a named field placed at bit `byte*8 + offset` with width `width` bits
(matching `HField(byte, offset, width)` of liteeth). -/
structure HeaderField where
  name : String
  byte : Nat
  offset : Nat
  width : Nat
  deriving DecidableEq, Repr

/-- `start = v.byte*8+v.offset` of `_encode_header`. -/
def fieldStart (f : HeaderField) : Nat := f.byte * 8 + f.offset

/-- Bits `[lo, lo+w)` of `v`, i.e. the value of the signal slice `v[lo:lo+w]`. -/
def extractBits (v lo w : Nat) : Nat := v / 2 ^ lo % 2 ^ w

/-- Replace bits `[lo, lo+w)` of `acc` by `v` (truncated to `w` bits): the
effect of the comb assignment `h_signal[start:end].eq(v)` on the slice, with
all other bits kept. -/
def setSlice (acc lo w v : Nat) : Nat :=
  acc % 2 ^ lo + v % 2 ^ w * 2 ^ lo + acc / 2 ^ (lo + w) * 2 ^ (lo + w)

/-- `n` full 8-bit groups of `v`, least significant first, each paired with
its width. -/
def fullChunks : Nat → Nat → List (Nat × Nat)
  | 0, _ => []
  | n + 1, v => (8, v % 256) :: fullChunks n (v / 256)

/-- The 8-bit groups of a `w`-bit value, least significant first; when `w` is
not a multiple of 8 the last (most significant) group holds the remaining
`w % 8` bits. -/
def byteChunks (w v : Nat) : List (Nat × Nat) :=
  if w % 8 = 0 then fullChunks (w / 8) v
  else fullChunks (w / 8) v ++ [(w % 8, v / 256 ^ (w / 8) % 2 ^ (w % 8))]

/-- Concatenate width/value chunks, first chunk at the least significant end
(the semantics of Migen's `Cat`). -/
def catChunks : List (Nat × Nat) → Nat
  | [] => 0
  | (w, v) :: rest => v % 2 ^ w + catChunks rest * 2 ^ w

/-- Modelled from the spec: `reverse_bytes` (defined in `liteeth/common.py`,
which is not under `src/`) reverses the byte order of a field value so that
each field is written in network byte order, most significant byte first.
For a width that is not a multiple of 8 the partial, most significant group
participates in the reversal like the full bytes. -/
def reverseBytes (w v : Nat) : Nat := catChunks (byteChunks w v).reverse

/-- One step of `_encode_header`'s loop: write field `f`'s metadata value,
truncated to the field's width (the width of the `getattr(obj, k)` signal),
byte-reversed, at bit `fieldStart f`. -/
def encodeStep (meta : String → Nat) (acc : Nat) (f : HeaderField) : Nat :=
  setSlice acc (fieldStart f) f.width (reverseBytes f.width (meta f.name % 2 ^ f.width))

/-- `_encode_header`: the value driven onto `self.header` by the generated
comb assignments, folding the fields in the order of the given list (the
code iterates `sorted(h_dict.items())`, i.e. the name-sorted field list). -/
def encodeHeader (fields : List HeaderField) (meta : String → Nat) : Nat :=
  fields.foldl (encodeStep meta) 0

/-- Two header fields occupy disjoint bit ranges. -/
def fieldsDisjoint (f g : HeaderField) : Prop :=
  fieldStart f + f.width ≤ fieldStart g ∨ fieldStart g + g.width ≤ fieldStart f

instance fieldsDisjointDec : DecidableRel fieldsDisjoint := fun f g =>
  inferInstanceAs (Decidable (_ ∨ _))

/-- Construction parameters of `LiteEthPacketizer`: the data-path width in
bits (`dw = flen(self.sink.data)`), `header_length` in bytes, and the header
field list. -/
structure Config where
  dw : Nat
  headerLength : Nat
  headerType : List HeaderField

/-- `header_length//(dw//8)`: the number of `dw`-bit words in the header. -/
def headerWords (cfg : Config) : Nat := cfg.headerLength / (cfg.dw / 8)

/-- Binary length of `n` (with enough `fuel`, at least `n`): the number of
bits needed to represent `n`. -/
def bitsLenAux : Nat → Nat → Nat
  | 0, _ => 0
  | fuel + 1, n => if n = 0 then 0 else bitsLenAux fuel (n / 2) + 1

/-- `bits_for(n)` of Migen for a nonnegative `n`: the number of bits needed
to represent `n`. -/
def bitsLen (n : Nat) : Nat := bitsLenAux n n

/-- Bit width of `counter.value`: Migen's `Counter(max=n)` allocates
`bits_for(n-1)` bits. -/
def counterW (cfg : Config) : Nat := bitsLen (headerWords cfg - 1)

/-- Construction-time behavior of `LiteEthPacketizer.__init__`.  The body
performs no validation of the header layout: the only ways construction can
fail are `dw // 8 = 0` (a `ZeroDivisionError` in `header_length//(dw//8)`)
and `headerWords = 0` (Migen's `Counter(max=0)` allocates a `Signal(max=0)`,
which the library rejects).  Overlap, coverage, `headerWords < 2` and
divisibility of the header length by the word width are never checked. -/
def packetizerInit (cfg : Config) : Except String Config :=
  if cfg.dw / 8 = 0 then .error "ZeroDivisionError"
  else if headerWords cfg = 0 then .error "ValueError"
  else .ok cfg

/-- The FSM states of the packetizer. -/
inductive FsmState
  | IDLE
  | SEND_HEADER
  | COPY
  deriving DecidableEq, Repr

/-- The upstream (`sink`) endpoint as seen on one tick: the handshake valid
bit `stb`, the stream word fields, and the metadata record (one value per
header field name, read by `getattr` in `_encode_header`). -/
structure SinkIn where
  stb : Bool
  data : Nat
  sop : Bool
  eop : Bool
  error : Bool
  meta : String → Nat

/-- The downstream (`source`) word driven combinationally on one tick. -/
structure SourceOut where
  stb : Bool
  sop : Bool
  eop : Bool
  data : Nat
  error : Bool
  deriving DecidableEq, Repr

/-- The synchronous registers of the packetizer: FSM state, the header shift
register and the word counter. -/
structure PState where
  fsm : FsmState
  headerReg : Nat
  counter : Nat
  deriving DecidableEq, Repr

/-- Everything the combinational block drives on one tick: the downstream
word, the upstream `ack`, the `load`/`shift` strobes of the shift register,
the counter controls, the enceded header value (input of `load`) and the
FSM's `NextState`, if any. -/
structure CombOut where
  source : SourceOut
  sinkAck : Bool
  load : Bool
  shiftEn : Bool
  counterReset : Bool
  counterCe : Bool
  headerVal : Nat
  nextState : Option FsmState

/-- The combinational block: a direct transcription of the three `fsm.act`
blocks of `LiteEthPacketizer`.  `ack` is the downstream ready signal
(`source.ack`).  Undriven comb signals default to 0/false, and the later
`sink.ack.eq(0)` inside `If(sink.stb & sink.sop, ...)` overrides the earlier
`sink.ack.eq(1)` of the IDLE state. -/
def comb (cfg : Config) (s : PState) (sink : SinkIn) (ack : Bool) : CombOut :=
  let headerVal := encodeHeader cfg.headerType sink.meta
  match s.fsm with
  | .IDLE =>
    if sink.stb && sink.sop then
      -- source.stb is driven 1, so `If(source.stb & source.ack, ...)` is `ack`.
      { source := { stb := true, sop := true, eop := false,
                    data := extractBits headerVal 0 cfg.dw, error := false },
        sinkAck := false, load := ack, shiftEn := false,
        counterReset := true, counterCe := false, headerVal := headerVal,
        nextState := if ack then some .SEND_HEADER else none }
    else
      { source := { stb := false, sop := false, eop := false, data := 0, error := false },
        sinkAck := true, load := false, shiftEn := false,
        counterReset := true, counterCe := false, headerVal := headerVal,
        nextState := none }
  | .SEND_HEADER =>
    -- `counter.value == header_length//(dw//8)-2`, a comparison with a
    -- possibly negative Python constant, hence taken over Int.
    let atLast : Bool := (s.counter : Int) == (headerWords cfg : Int) - 2
    { source := { stb := true, sop := false, eop := sink.eop && atLast,
                  data := extractBits s.headerReg cfg.dw cfg.dw, error := false },
      sinkAck := false, load := false, shiftEn := ack,
      counterReset := false, counterCe := ack, headerVal := headerVal,
      nextState := if ack && atLast then some .COPY else none }
  | .COPY =>
    { source := { stb := sink.stb, sop := false, eop := sink.eop,
                  data := sink.data, error := sink.error },
      sinkAck := sink.stb && ack, load := false, shiftEn := false,
      counterReset := false, counterCe := false, headerVal := headerVal,
      nextState := if sink.stb && ack && sink.eop then some .IDLE else none }

/-- The synchronous block: `header_reg` loads `self.header` or shifts down by
`dw` (backfilling zeros), and the counter resets or increments modulo its
width; `NextState` takes effect here. -/
def applySync (cfg : Config) (s : PState) (c : CombOut) : PState :=
  { fsm := c.nextState.getD s.fsm,
    headerReg :=
      if c.load then c.headerVal
      else if c.shiftEn then s.headerReg / 2 ^ cfg.dw
      else s.headerReg,
    counter :=
      if c.counterReset then 0
      else if c.counterCe then (s.counter + 1) % 2 ^ counterW cfg
      else s.counter }

/-- One word of an upstream frame, as held by the producer. -/
structure SinkWord where
  data : Nat
  sop : Bool
  eop : Bool
  error : Bool
  meta : String → Nat

/-- What the upstream endpoint presents given its pending queue: the front
word with `stb` asserted, held stable until acknowledged; nothing (stb
deasserted) when the queue is empty. -/
def presentSink : List SinkWord → SinkIn
  | [] => { stb := false, data := 0, sop := false, eop := false, error := false,
            meta := fun _ => 0 }
  | w :: _ => { stb := true, data := w.data, sop := w.sop, eop := w.eop,
                error := w.error, meta := w.meta }

/-- A run state: the packetizer's registers plus the upstream queue. -/
structure RState where
  ps : PState
  queue : List SinkWord

/-- One simulation tick under downstream ready bit `ack`: apply the comb
block, advance the registers, consume the front upstream word when the comb
block acknowledged it, and report the downstream word when the downstream
transfer was accepted (`source.stb & source.ack`). -/
def tick (cfg : Config) (r : RState) (ack : Bool) : RState × Option SourceOut :=
  let sin := presentSink r.queue
  let c := comb cfg r.ps sin ack
  (⟨applySync cfg r.ps c, if c.sinkAck && sin.stb then r.queue.tail else r.queue⟩,
   if c.source.stb && ack then some c.source else none)

/-- The downstream words accepted over a run, one tick per entry of the
ready pattern. -/
def runOutputs (cfg : Config) (r : RState) : List Bool → List SourceOut
  | [] => []
  | b :: bs => ((tick cfg r b).2).toList ++ runOutputs cfg (tick cfg r b).1 bs

/-- The FSM state sequence over a run, including the initial state. -/
def runStates (cfg : Config) (r : RState) : List Bool → List FsmState
  | [] => [r.ps.fsm]
  | b :: bs => r.ps.fsm :: runStates cfg (tick cfg r b).1 bs

/-- The run state after consuming the given ready pattern. -/
def stepRun (cfg : Config) (r : RState) : List Bool → RState
  | [] => r
  | b :: bs => stepRun cfg (tick cfg r b).1 bs

/-- Reset state with a pending upstream frame. -/
def initR (frame : List SinkWord) : RState := ⟨⟨.IDLE, 0, 0⟩, frame⟩

/-- The words of a frame carrying the given payload word values: `sop` on the
first word (`first` tracks it through the recursion), `eop` on the last,
`error` clear, the same metadata on every word. -/
def frameWords (meta : String → Nat) : Bool → List Nat → List SinkWord
  | _, [] => []
  | first, [d] => [⟨d, first, true, false, meta⟩]
  | first, d :: ds => ⟨d, first, false, false, meta⟩ :: frameWords meta false ds

/-- A whole upstream frame for payload word values `ds`. -/
def mkFrame (meta : String → Nat) (ds : List Nat) : List SinkWord :=
  frameWords meta true ds

/-- The downstream words the COPY state produces for payload values `ds`:
each value forwarded with `sop` clear and `eop` on the last. -/
def copyOuts : List Nat → List SourceOut
  | [] => []
  | [d] => [{ stb := true, sop := false, eop := true, data := d, error := false }]
  | d :: ds => { stb := true, sop := false, eop := false, data := d, error := false } :: copyOuts ds

/-- The `n` bytes of `v`, least significant (first on the wire) first. -/
def toBytes : Nat → Nat → List Nat
  | 0, _ => []
  | n + 1, v => v % 256 :: toBytes n (v / 256)

/-- The emitted word stream concatenated as bytes. -/
def outBytes (cfg : Config) (os : List SourceOut) : List Nat :=
  os.flatMap fun o => toBytes (cfg.dw / 8) o.data

/-- The start-of-frame flags of an emitted word stream. -/
def sopFlags (os : List SourceOut) : List Bool := os.map fun o => o.sop

/-- The end-of-frame flags of an emitted word stream. -/
def eopFlags (os : List SourceOut) : List Bool := os.map fun o => o.eop

/-- `FrontSeg l1 l2`: `l1` is an initial segment of `l2`. -/
def FrontSeg {α : Type} (l1 l2 : List α) : Prop := ∃ t, l1 ++ t = l2

/-- A 3-byte header layout of three byte-wide fields, used for the concrete
traces of the spec's degenerate-frame scenarios. -/
def testFields : List HeaderField :=
  [⟨"f0", 0, 0, 8⟩, ⟨"f1", 1, 0, 8⟩, ⟨"f2", 2, 0, 8⟩]

/-- Metadata making `testFields` encode to header bytes 0x07, 0x12, 0x34. -/
def testMeta : String → Nat := fun n =>
  if n = "f0" then 0x07 else if n = "f1" then 0x12 else if n = "f2" then 0x34 else 0

/-- `W = 8` bits, `headerLengthBytes = 3` (`headerWords = 3`, threshold 1). -/
def testCfg : Config := ⟨8, 3, testFields⟩

/-- The single-byte-payload frame `[0xCC]` of the degenerate scenario. -/
def c3Frame : List SinkWord := mkFrame testMeta [0xCC]

/-- A layout whose two fields overlap on bits `[4, 8)`. -/
def overlapFields : List HeaderField := [⟨"a", 0, 0, 8⟩, ⟨"b", 0, 4, 8⟩]

/-- An overlapping-fields configuration with `headerWords = 2`. -/
def overlapCfg : Config := ⟨8, 2, overlapFields⟩

/-- A configuration with `headerWords = 1 < 2`. -/
def hw1Cfg : Config := ⟨8, 1, [⟨"a", 0, 0, 8⟩]⟩

/-- An upstream presentation with `stb` deasserted. -/
def noSink : SinkIn := ⟨false, 0, false, false, false, fun _ => 0⟩

/-- An arbitrary upstream presentation (valid, not start, end marked). -/
def sampleSink : SinkIn := ⟨true, 0xAB, false, true, true, fun _ => 0⟩

/-- Observational equivalence of run states: equal FSM state, shift register
and pending queue; the counter must agree except in IDLE, where every tick
resets it before it is ever read. -/
def Rrel (r r' : RState) : Prop :=
  r.ps.fsm = r'.ps.fsm ∧ r.ps.headerReg = r'.ps.headerReg ∧ r.queue = r'.queue ∧
    (r.ps.fsm = .IDLE ∨ r.ps.counter = r'.ps.counter)

/-- C6: with `W = 8`, `headerLengthBytes = 3`, header bytes 0x07 0x12 0x34 and
payload bytes 0xAA 0xBB (second marked end), the packetizer emits exactly
(0x07,start), (0x12,-), (0x34,-), (0xAA,-), (0xBB,end) — five words — and the
state sequence is Idle, SendHeader, SendHeader, Copy, Copy, Idle. -/
theorem C6_short_frame_trace :
    runOutputs testCfg (initR (mkFrame testMeta [0xAA, 0xBB])) (List.replicate 5 true)
        = [⟨true, true, false, 0x07, false⟩, ⟨true, false, false, 0x12, false⟩,
           ⟨true, false, false, 0x34, false⟩, ⟨true, false, false, 0xAA, false⟩,
           ⟨true, false, true, 0xBB, false⟩] ∧
    runStates testCfg (initR (mkFrame testMeta [0xAA, 0xBB])) (List.replicate 5 true)
        = [.IDLE, .SEND_HEADER, .SEND_HEADER, .COPY, .COPY, .IDLE] :=
  ⟨by decide, by decide⟩

/-- C3, counterexample: in the single-byte-payload scenario (payload `[0xCC]`
marked end, pending during SendHeader's second word) the word 0xCC is NOT
"never forwarded downstream": the run does emit a word with data 0xCC. -/
theorem C3_counterexample :
    ¬ ∀ o ∈ runOutputs testCfg (initR c3Frame) (List.replicate 4 true), o.data ≠ 0xCC := by
  decide

/-- C3, amended: in the single-byte-payload degenerate case the third emitted
word (0x34) carries end=true and the machine transitions directly to Copy;
however the pending word 0xCC is not consumed by that end condition (SendHeader
never acknowledges the upstream), so it is subsequently forwarded in Copy as a
fourth emitted word, again carrying end=true. -/
theorem C3_degenerate_trace :
    runOutputs testCfg (initR c3Frame) (List.replicate 4 true)
        = [⟨true, true, false, 0x07, false⟩, ⟨true, false, false, 0x12, false⟩,
           ⟨true, false, true, 0x34, false⟩, ⟨true, false, true, 0xCC, false⟩] ∧
    runStates testCfg (initR c3Frame) (List.replicate 4 true)
        = [.IDLE, .SEND_HEADER, .SEND_HEADER, .COPY, .IDLE] :=
  ⟨by decide, by decide⟩

/-- C2, counterexample: construction does not reject invalid HeaderLayouts —
a layout with overlapping fields, and one with `headerWords = 1 < 2`, both
construct successfully. -/
theorem C2_counterexample :
    packetizerInit overlapCfg = .ok overlapCfg ∧ packetizerInit hw1Cfg = .ok hw1Cfg :=
  ⟨rfl, rfl⟩

/-- C2, amended: `LiteEthPacketizer.__init__` performs no HeaderLayout
validation; every configuration with `dw ≥ 8` and `headerWords ≥ 1`
constructs without error — including overlapping fields, field coverage not
equal to `headerLengthBytes*8`, `headerWords < 2`, or a header bit length not
divisible by `W`. -/
theorem C2_no_validation (cfg : Config) (h1 : 8 ≤ cfg.dw) (h2 : 1 ≤ headerWords cfg) :
    packetizerInit cfg = .ok cfg := by
  have hd : cfg.dw / 8 ≠ 0 := by
    have := Nat.div_pos h1 (by norm_num)
    omega
  have hw : headerWords cfg ≠ 0 := by omega
  simp [packetizerInit, hd, hw]

/-- C2, witness: the amended no-validation theorem applied to the
overlapping-fields configuration. -/
theorem C2_no_validation_witness :
    8 ≤ overlapCfg.dw ∧ 1 ≤ headerWords overlapCfg ∧
    packetizerInit overlapCfg = .ok overlapCfg :=
  ⟨by decide, by decide, C2_no_validation overlapCfg (by decide) (by decide)⟩

/-- C4, counterexample: from the reachable SendHeader state entered after the
first accepted word of the C6 frame, a tick with upstream valid deasserted
(`noSink.stb = false`) but downstream ready does shift the register
(0x341207 to 0x3412) and does advance the counter (0 to 1). -/
theorem C4_counterexample :
    (stepRun testCfg (initR (mkFrame testMeta [0xAA, 0xBB])) [true]).ps
        = ⟨.SEND_HEADER, 0x341207, 0⟩ ∧
    noSink.stb = false ∧
    applySync testCfg ⟨.SEND_HEADER, 0x341207, 0⟩
        (comb testCfg ⟨.SEND_HEADER, 0x341207, 0⟩ noSink true)
      = ⟨.SEND_HEADER, 0x3412, 1⟩ :=
  ⟨by decide, rfl, by decide⟩

/-- C4, amended: in SendHeader the shift register and counter are controlled
solely by the downstream handshake: the shift and counter-enable strobes
equal the downstream ready bit (independently of upstream valid), and on a
tick where downstream is not ready the whole register state is unchanged. -/
theorem C4_shift_on_ready_only (cfg : Config) (s : PState) (sink : SinkIn) (ack : Bool)
    (hs : s.fsm = .SEND_HEADER) :
    (comb cfg s sink ack).shiftEn = ack ∧
    (comb cfg s sink ack).counterCe = ack ∧
    (ack = false → applySync cfg s (comb cfg s sink ack) = s) := by
  obtain ⟨f, reg, c⟩ := s
  subst hs
  refine ⟨rfl, rfl, fun ha => ?_⟩
  subst ha
  simp [comb, applySync]

/-- C4, witness: the amended theorem at the concrete SendHeader state with a
deasserted-ready tick. -/
theorem C4_shift_on_ready_only_witness :
    (comb testCfg ⟨.SEND_HEADER, 0x341207, 0⟩ noSink false).shiftEn = false ∧
    (comb testCfg ⟨.SEND_HEADER, 0x341207, 0⟩ noSink false).counterCe = false ∧
    (false = false → applySync testCfg ⟨.SEND_HEADER, 0x341207, 0⟩
        (comb testCfg ⟨.SEND_HEADER, 0x341207, 0⟩ noSink false)
      = ⟨.SEND_HEADER, 0x341207, 0⟩) :=
  C4_shift_on_ready_only testCfg ⟨.SEND_HEADER, 0x341207, 0⟩ noSink false rfl

/-- C5: in SendHeader the emitted word's end flag equals
`upstream.end AND (counter == headerWords - 2)`. -/
theorem C5_sendheader_eop (cfg : Config) (s : PState) (sink : SinkIn) (ack : Bool)
    (hs : s.fsm = .SEND_HEADER) (hw2 : 2 ≤ headerWords cfg) :
    (comb cfg s sink ack).source.eop
      = (sink.eop && (s.counter == headerWords cfg - 2)) := by
  obtain ⟨f, reg, c⟩ := s
  subst hs
  simp only [comb]
  congr 1
  rw [Bool.eq_iff_iff]
  simp only [beq_iff_eq]
  omega

/-- C5, witness: the SendHeader end-condition theorem at a concrete state
with the counter at the threshold. -/
theorem C5_sendheader_eop_witness :
    (⟨.SEND_HEADER, 0x3412, 1⟩ : PState).fsm = .SEND_HEADER ∧
    2 ≤ headerWords testCfg ∧
    (comb testCfg ⟨.SEND_HEADER, 0x3412, 1⟩ sampleSink true).source.eop
      = (sampleSink.eop && ((⟨.SEND_HEADER, 0x3412, 1⟩ : PState).counter == headerWords testCfg - 2)) :=
  ⟨rfl, by decide,
    C5_sendheader_eop testCfg ⟨.SEND_HEADER, 0x3412, 1⟩ sampleSink true rfl (by decide)⟩

/-- C7: in Copy every emitted word forwards the upstream word verbatim
(start clear, data/end/error copied, valid follows upstream valid), the
upstream is advanced exactly on an accepted transfer, and the machine goes
back to Idle if and only if the forwarded word carried end-of-frame. -/
theorem C7_copy_forwarding (cfg : Config) (s : PState) (sink : SinkIn) (ack : Bool)
    (hs : s.fsm = .COPY) :
    (comb cfg s sink ack).source.stb = sink.stb ∧
    (comb cfg s sink ack).source.sop = false ∧
    (comb cfg s sink ack).source.data = sink.data ∧
    (comb cfg s sink ack).source.eop = sink.eop ∧
    (comb cfg s sink ack).source.error = sink.error ∧
    (comb cfg s sink ack).sinkAck = (sink.stb && ack) ∧
    (applySync cfg s (comb cfg s sink ack)).fsm
      = (if sink.stb && ack && sink.eop then .IDLE else .COPY) := by
  obtain ⟨f, reg, c⟩ := s
  subst hs
  refine ⟨rfl, rfl, rfl, rfl, rfl, rfl, ?_⟩
  by_cases h : (sink.stb && ack && sink.eop) = true
  · simp [comb, applySync, h]
  · simp [comb, applySync, h]

/-- C7, witness: the Copy-state forwarding theorem on a concrete word. -/
theorem C7_copy_forwarding_witness :
    (comb testCfg ⟨.COPY, 0x34, 2⟩ sampleSink true).source.stb = sampleSink.stb ∧
    (comb testCfg ⟨.COPY, 0x34, 2⟩ sampleSink true).source.sop = false ∧
    (comb testCfg ⟨.COPY, 0x34, 2⟩ sampleSink true).source.data = sampleSink.data ∧
    (comb testCfg ⟨.COPY, 0x34, 2⟩ sampleSink true).source.eop = sampleSink.eop ∧
    (comb testCfg ⟨.COPY, 0x34, 2⟩ sampleSink true).source.error = sampleSink.error ∧
    (comb testCfg ⟨.COPY, 0x34, 2⟩ sampleSink true).sinkAck = (sampleSink.stb && true) ∧
    (applySync testCfg ⟨.COPY, 0x34, 2⟩ (comb testCfg ⟨.COPY, 0x34, 2⟩ sampleSink true)).fsm
      = (if sampleSink.stb && true && sampleSink.eop then .IDLE else .COPY) :=
  C7_copy_forwarding testCfg ⟨.COPY, 0x34, 2⟩ sampleSink true rfl

/-- C10: in Idle, a valid upstream word without start-of-frame is
acknowledged (consumed) on that tick while no downstream word is asserted. -/
theorem C10_idle_drop (cfg : Config) (s : PState) (sink : SinkIn) (ack : Bool)
    (hs : s.fsm = .IDLE) (hstb : sink.stb = true) (hsop : sink.sop = false) :
    (comb cfg s sink ack).sinkAck = true ∧
    (comb cfg s sink ack).source.stb = false := by
  obtain ⟨f, reg, c⟩ := s
  subst hs
  simp [comb, hstb, hsop]

/-- C10, witness: the Idle-discard theorem on a concrete non-start word. -/
theorem C10_idle_drop_witness :
    sampleSink.stb = true ∧ sampleSink.sop = false ∧
    (comb testCfg ⟨.IDLE, 0, 0⟩ sampleSink true).sinkAck = true ∧
    (comb testCfg ⟨.IDLE, 0, 0⟩ sampleSink true).source.stb = false :=
  ⟨rfl, rfl,
    (C10_idle_drop testCfg ⟨.IDLE, 0, 0⟩ sampleSink true rfl rfl rfl).1,
    (C10_idle_drop testCfg ⟨.IDLE, 0, 0⟩ sampleSink true rfl rfl rfl).2⟩

/-- Reading back the slice just written by `setSlice` returns the written
value, truncated to the slice width. -/
theorem extractBits_setSlice_self (acc lo w v : Nat) :
    extractBits (setSlice acc lo w v) lo w = v % 2 ^ w := by
  unfold extractBits setSlice
  have h2 : 0 < 2 ^ lo := Nat.two_pow_pos lo
  rw [pow_add]
  have e : acc % 2 ^ lo + v % 2 ^ w * 2 ^ lo + acc / (2 ^ lo * 2 ^ w) * (2 ^ lo * 2 ^ w)
      = acc % 2 ^ lo + (v % 2 ^ w + acc / (2 ^ lo * 2 ^ w) * 2 ^ w) * 2 ^ lo := by ring
  rw [e, Nat.add_mul_div_right _ _ h2, Nat.div_eq_of_lt (Nat.mod_lt _ h2), zero_add,
      Nat.add_mul_mod_self_right, Nat.mod_mod_of_dvd _ (dvd_refl _)]

/-- `extractBits` at `[lo, lo+w)` only depends on the value modulo
`2 ^ (lo + w)`. -/
theorem extractBits_ext (a b lo w : Nat) (h : a % 2 ^ (lo + w) = b % 2 ^ (lo + w)) :
    extractBits a lo w = extractBits b lo w := by
  unfold extractBits
  rw [Nat.div_mod_eq_mod_mul_div, Nat.div_mod_eq_mod_mul_div, ← pow_add, h]

/-- `setSlice` keeps the bits below the written slice. -/
theorem setSlice_mod_low (acc lo w v : Nat) :
    setSlice acc lo w v % 2 ^ lo = acc % 2 ^ lo := by
  unfold setSlice
  rw [pow_add]
  have e : acc % 2 ^ lo + v % 2 ^ w * 2 ^ lo + acc / (2 ^ lo * 2 ^ w) * (2 ^ lo * 2 ^ w)
      = acc % 2 ^ lo + (v % 2 ^ w + acc / (2 ^ lo * 2 ^ w) * 2 ^ w) * 2 ^ lo := by ring
  rw [e, Nat.add_mul_mod_self_right, Nat.mod_mod_of_dvd _ (dvd_refl _)]

/-- Reading a slice that lies entirely below the written one is unchanged. -/
theorem extractBits_setSlice_below (acc lo w v lo' w' : Nat) (h : lo' + w' ≤ lo) :
    extractBits (setSlice acc lo w v) lo' w' = extractBits acc lo' w' := by
  apply extractBits_ext
  have hd : (2 : Nat) ^ (lo' + w') ∣ 2 ^ lo := pow_dvd_pow 2 h
  calc setSlice acc lo w v % 2 ^ (lo' + w')
      = setSlice acc lo w v % 2 ^ lo % 2 ^ (lo' + w') := (Nat.mod_mod_of_dvd _ hd).symm
    _ = acc % 2 ^ lo % 2 ^ (lo' + w') := by rw [setSlice_mod_low]
    _ = acc % 2 ^ (lo' + w') := Nat.mod_mod_of_dvd _ hd

/-- `setSlice` keeps the bits above the written slice. -/
theorem setSlice_div_high (acc lo w v : Nat) :
    setSlice acc lo w v / 2 ^ (lo + w) = acc / 2 ^ (lo + w) := by
  have h1 : acc % 2 ^ lo < 2 ^ lo := Nat.mod_lt _ (Nat.two_pow_pos lo)
  have h2 : v % 2 ^ w < 2 ^ w := Nat.mod_lt _ (Nat.two_pow_pos w)
  have hlow : acc % 2 ^ lo + v % 2 ^ w * 2 ^ lo < 2 ^ (lo + w) := by
    have hstep : acc % 2 ^ lo + v % 2 ^ w * 2 ^ lo + 1 ≤ (1 + v % 2 ^ w) * 2 ^ lo := by
      calc acc % 2 ^ lo + v % 2 ^ w * 2 ^ lo + 1
          = (acc % 2 ^ lo + 1) + v % 2 ^ w * 2 ^ lo := by ring
        _ ≤ 2 ^ lo + v % 2 ^ w * 2 ^ lo := Nat.add_le_add_right (by omega) _
        _ = (1 + v % 2 ^ w) * 2 ^ lo := by ring
    have hmul : (1 + v % 2 ^ w) * 2 ^ lo ≤ 2 ^ w * 2 ^ lo :=
      Nat.mul_le_mul_right _ (by omega)
    have : (2 : Nat) ^ w * 2 ^ lo = 2 ^ (lo + w) := by rw [← pow_add]; congr 1; omega
    omega
  unfold setSlice
  rw [Nat.add_mul_div_right _ _ (Nat.two_pow_pos (lo + w)), Nat.div_eq_of_lt hlow, zero_add]

/-- Reading a slice that lies entirely above the written one is unchanged. -/
theorem extractBits_setSlice_above (acc lo w v lo' w' : Nat) (h : lo + w ≤ lo') :
    extractBits (setSlice acc lo w v) lo' w' = extractBits acc lo' w' := by
  unfold extractBits
  have e : ∀ x : Nat, x / 2 ^ lo' = x / 2 ^ (lo + w) / 2 ^ (lo' - (lo + w)) := by
    intro x
    rw [Nat.div_div_eq_div_mul, ← pow_add]
    congr 2
    omega
  rw [e, e, setSlice_div_high]

/-- Dividing by `2 ^ k` shifts the window of `extractBits` up by `k`. -/
theorem extractBits_div (a k lo w : Nat) :
    extractBits (a / 2 ^ k) lo w = extractBits a (k + lo) w := by
  unfold extractBits
  rw [Nat.div_div_eq_div_mul, ← pow_add]

/-- `catChunks` stays below two to the sum of the chunk widths. -/
theorem catChunks_lt (cs : List (Nat × Nat)) :
    catChunks cs < 2 ^ (cs.map Prod.fst).sum := by
  induction cs with
  | nil => simp [catChunks]
  | cons c rest ih =>
    obtain ⟨w, v⟩ := c
    simp only [catChunks, List.map_cons, List.sum_cons]
    have h1 : v % 2 ^ w < 2 ^ w := Nat.mod_lt _ (Nat.two_pow_pos w)
    have key : v % 2 ^ w + catChunks rest * 2 ^ w + 1
        ≤ 2 ^ (w + (rest.map Prod.fst).sum) := by
      calc v % 2 ^ w + catChunks rest * 2 ^ w + 1
          = (v % 2 ^ w + 1) + catChunks rest * 2 ^ w := by ring
        _ ≤ 2 ^ w + catChunks rest * 2 ^ w := Nat.add_le_add_right (by omega) _
        _ = (1 + catChunks rest) * 2 ^ w := by ring
        _ ≤ 2 ^ (rest.map Prod.fst).sum * 2 ^ w := Nat.mul_le_mul_right _ (by omega)
        _ = 2 ^ (w + (rest.map Prod.fst).sum) := by rw [← pow_add]; congr 1; omega
    omega

/-- The widths of `n` full chunks sum to `8 * n`. -/
theorem fullChunks_width_sum (n : Nat) : ∀ v, ((fullChunks n v).map Prod.fst).sum = 8 * n := by
  induction n with
  | zero => intro v; simp [fullChunks]
  | succ n ih => intro v; simp [fullChunks, ih]; omega

/-- The widths of the chunks of a `w`-bit value sum to `w`. -/
theorem byteChunks_width_sum (w v : Nat) : ((byteChunks w v).map Prod.fst).sum = w := by
  unfold byteChunks
  split
  · rw [fullChunks_width_sum]; omega
  · simp [fullChunks_width_sum]; omega

/-- The byte-reversed value of a `w`-bit field fits in `w` bits. -/
theorem reverseBytes_lt (w v : Nat) : reverseBytes w v < 2 ^ w := by
  unfold reverseBytes
  have h := catChunks_lt (byteChunks w v).reverse
  rwa [List.map_reverse, List.sum_reverse, byteChunks_width_sum] at h

/-- Folding `_encode_header` steps over fields that all lie outside the
window `[lo, lo+w)` leaves that window of the accumulator unchanged. -/
theorem encode_fold_preserve (meta : String → Nat) (fields : List HeaderField)
    (acc lo w : Nat)
    (h : ∀ g ∈ fields, fieldStart g + g.width ≤ lo ∨ lo + w ≤ fieldStart g) :
    extractBits (fields.foldl (encodeStep meta) acc) lo w = extractBits acc lo w := by
  induction fields generalizing acc with
  | nil => rfl
  | cons g t ih =>
    rw [List.foldl_cons, ih _ fun x hx => h x (List.mem_cons_of_mem _ hx)]
    simp only [encodeStep]
    rcases h g (List.mem_cons_self ..) with hc | hc
    · exact extractBits_setSlice_above _ _ _ _ _ _ hc
    · exact extractBits_setSlice_below _ _ _ _ _ _ hc

/-- Generalized form of the field-placement property: starting from any
accumulator, after folding a pairwise-disjoint field list containing `f`,
the window of `f` holds its byte-reversed, width-masked metadata value. -/
theorem encode_fold_field (meta : String → Nat) (f : HeaderField) :
    ∀ (fields : List HeaderField) (acc : Nat), f ∈ fields →
      List.Pairwise fieldsDisjoint fields →
      extractBits (fields.foldl (encodeStep meta) acc) (fieldStart f) f.width
        = reverseBytes f.width (meta f.name % 2 ^ f.width) := by
  intro fields
  induction fields with
  | nil => intro acc hm; cases hm
  | cons g t ih =>
    intro acc hm hp
    rw [List.foldl_cons]
    rcases List.mem_cons.mp hm with he | ht
    · subst he
      have hside : ∀ x ∈ t, fieldStart x + x.width ≤ fieldStart f ∨
          fieldStart f + f.width ≤ fieldStart x := by
        intro x hx
        exact Or.symm ((List.pairwise_cons.mp hp).1 x hx)
      rw [encode_fold_preserve meta t _ _ _ hside]
      simp only [encodeStep]
      rw [extractBits_setSlice_self, Nat.mod_eq_of_lt (reverseBytes_lt _ _)]
    · exact ih _ ht (List.pairwise_cons.mp hp).2

/-- Writing a slice that lies inside the first `N` bits keeps the value
below `2 ^ N`. -/
theorem setSlice_lt_of_lt (acc lo w v N : Nat) (hacc : acc < 2 ^ N) (hr : lo + w ≤ N) :
    setSlice acc lo w v < 2 ^ N := by
  have h1 : acc % 2 ^ lo < 2 ^ lo := Nat.mod_lt _ (Nat.two_pow_pos lo)
  have h2 : v % 2 ^ w < 2 ^ w := Nat.mod_lt _ (Nat.two_pow_pos w)
  have h3 : acc / 2 ^ (lo + w) < 2 ^ (N - (lo + w)) := by
    apply Nat.div_lt_of_lt_mul
    rw [← pow_add]
    have e : lo + w + (N - (lo + w)) = N := by omega
    rw [e]
    exact hacc
  have key : setSlice acc lo w v + 1 ≤ 2 ^ N := by
    calc setSlice acc lo w v + 1
        = (acc % 2 ^ lo + 1) + v % 2 ^ w * 2 ^ lo + acc / 2 ^ (lo + w) * 2 ^ (lo + w) := by
          unfold setSlice; ring
      _ ≤ 2 ^ lo + v % 2 ^ w * 2 ^ lo + acc / 2 ^ (lo + w) * 2 ^ (lo + w) := by
          refine Nat.add_le_add_right (Nat.add_le_add_right (by omega) _) _
      _ = (1 + v % 2 ^ w) * 2 ^ lo + acc / 2 ^ (lo + w) * 2 ^ (lo + w) := by ring
      _ ≤ 2 ^ w * 2 ^ lo + acc / 2 ^ (lo + w) * 2 ^ (lo + w) :=
          Nat.add_le_add_right (Nat.mul_le_mul_right _ (by omega)) _
      _ = (1 + acc / 2 ^ (lo + w)) * 2 ^ (lo + w) := by rw [pow_add]; ring
      _ ≤ 2 ^ (N - (lo + w)) * 2 ^ (lo + w) := Nat.mul_le_mul_right _ (by omega)
      _ = 2 ^ N := by rw [← pow_add]; congr 1; omega
  omega

/-- Folding encode steps keeps the accumulator inside `2 ^ N` when every
field lies inside the first `N` bits. -/
theorem encode_fold_lt (meta : String → Nat) (fields : List HeaderField) (N : Nat) :
    ∀ acc, acc < 2 ^ N → (∀ g ∈ fields, fieldStart g + g.width ≤ N) →
      fields.foldl (encodeStep meta) acc < 2 ^ N := by
  induction fields with
  | nil => intro acc ha _; exact ha
  | cons g t ih =>
    intro acc ha hr
    rw [List.foldl_cons]
    refine ih _ ?_ fun x hx => hr x (List.mem_cons_of_mem _ hx)
    exact setSlice_lt_of_lt acc _ _ _ N ha (hr g (List.mem_cons_self ..))

/-- C8: for every pairwise-disjoint header layout lying within `N` bits and
every metadata record, the encoder output fits in `N` bits, and each field's
value — silently masked to its width — appears byte-order-reversed at bit
position `byteOffset*8 + bitOffset`, whatever the processing order of the
field list. -/
theorem C8_header_encoding (fields : List HeaderField) (meta : String → Nat)
    (N : Nat) (f : HeaderField)
    (hmem : f ∈ fields) (hdisj : List.Pairwise fieldsDisjoint fields)
    (hrange : ∀ g ∈ fields, fieldStart g + g.width ≤ N) :
    encodeHeader fields meta < 2 ^ N ∧
    extractBits (encodeHeader fields meta) (fieldStart f) f.width
      = reverseBytes f.width (meta f.name % 2 ^ f.width) :=
  ⟨encode_fold_lt meta fields N 0 (Nat.two_pow_pos N) hrange,
   encode_fold_field meta f fields 0 hmem hdisj⟩

/-- C8, witness: the encoding theorem at the test layout's middle field. -/
theorem C8_header_encoding_witness :
    (⟨"f1", 1, 0, 8⟩ : HeaderField) ∈ testFields ∧
    List.Pairwise fieldsDisjoint testFields ∧
    (∀ g ∈ testFields, fieldStart g + g.width ≤ 24) ∧
    (encodeHeader testFields testMeta < 2 ^ 24 ∧
     extractBits (encodeHeader testFields testMeta) 8 8
       = reverseBytes 8 (testMeta "f1" % 2 ^ 8)) :=
  ⟨by decide, by decide, by decide,
   C8_header_encoding testFields testMeta 24 ⟨"f1", 1, 0, 8⟩
     (by decide) (by decide) (by decide)⟩

/-- With enough fuel, `bitsLenAux` computes a bit count that bounds `n`. -/
theorem bitsLenAux_lt : ∀ (fuel n : Nat), n ≤ fuel → n < 2 ^ bitsLenAux fuel n := by
  intro fuel
  induction fuel with
  | zero =>
    intro n h
    have hn : n = 0 := by omega
    subst hn
    simp [bitsLenAux]
  | succ fuel ih =>
    intro n h
    by_cases hn : n = 0
    · simp [bitsLenAux, hn]
    · have hrec := ih (n / 2) (by omega)
      simp only [bitsLenAux, hn, if_false, pow_succ]
      omega

/-- A value fits in `bitsLen` of itself many bits. -/
theorem lt_two_pow_bitsLen (n : Nat) : n < 2 ^ bitsLen n :=
  bitsLenAux_lt n n (Nat.le_refl n)

/-- `toBytes` splits over an addition of byte counts. -/
theorem toBytes_add (a b : Nat) : ∀ v, toBytes (a + b) v = toBytes a v ++ toBytes b (v / 256 ^ a) := by
  induction a with
  | zero => intro v; simp [toBytes]
  | succ a ih =>
    intro v
    rw [show a + 1 + b = (a + b) + 1 from by omega]
    simp only [toBytes, List.cons_append, ih (v / 256)]
    rw [Nat.div_div_eq_div_mul, ← pow_succ']

/-- `toBytes n` only reads the low `n` bytes. -/
theorem toBytes_mod (n : Nat) : ∀ v, toBytes n (v % 256 ^ n) = toBytes n v := by
  induction n with
  | zero => intro v; rfl
  | succ n ih =>
    intro v
    simp only [toBytes]
    congr 1
    · exact Nat.mod_mod_of_dvd _ (dvd_pow_self 256 (Nat.succ_ne_zero n))
    · rw [pow_succ', Nat.mod_mul_right_div_self]
      exact ih (v / 256)

/-- Splitting a value into `n` words of `8*wB` bits and taking the bytes of
each word gives the low `n*wB` bytes of the value. -/
theorem wordsBytes (wB : Nat) : ∀ (n v : Nat),
    ((List.range n).flatMap fun k => toBytes wB (extractBits v (k * (8 * wB)) (8 * wB)))
      = toBytes (n * wB) v := by
  intro n
  induction n with
  | zero => intro v; rw [Nat.zero_mul]; rfl
  | succ n ih =>
    intro v
    rw [List.range_succ, List.flatMap_append, ih]
    simp only [List.flatMap_cons, List.flatMap_nil, List.append_nil]
    rw [show (n + 1) * wB = n * wB + wB from by ring, toBytes_add]
    congr 1
    unfold extractBits
    have e2 : (2 : Nat) ^ (n * (8 * wB)) = 256 ^ (n * wB) := by
      rw [show (256 : Nat) = 2 ^ 8 from rfl, ← pow_mul]
      congr 1
      ring
    have e3 : (2 : Nat) ^ (8 * wB) = 256 ^ wB := by
      rw [show (256 : Nat) = 2 ^ 8 from rfl, ← pow_mul]
    rw [e2, e3]
    exact toBytes_mod wB _

/-- The COPY outputs carry exactly the payload values. -/
theorem copyOuts_map_data : ∀ ds : List Nat, (copyOuts ds).map (fun o => o.data) = ds := by
  intro ds
  induction ds with
  | nil => rfl
  | cons d t ih =>
    cases t with
    | nil => rfl
    | cons d' t' =>
      simp only [copyOuts, List.map_cons] at ih ⊢
      rw [ih]

/-- The bytes of the COPY outputs are the payload words' bytes. -/
theorem outBytes_copyOuts (cfg : Config) : ∀ ds : List Nat,
    outBytes cfg (copyOuts ds) = ds.flatMap fun d => toBytes (cfg.dw / 8) d := by
  intro ds
  induction ds with
  | nil => rfl
  | cons d t ih =>
    cases t with
    | nil => simp [copyOuts, outBytes]
    | cons d' t' =>
      simp only [copyOuts, outBytes, List.flatMap_cons] at ih ⊢
      rw [ih]

/-- No COPY output carries a start flag. -/
theorem copyOuts_sop : ∀ ds : List Nat, sopFlags (copyOuts ds) = List.replicate ds.length false := by
  intro ds
  induction ds with
  | nil => rfl
  | cons d t ih =>
    cases t with
    | nil => rfl
    | cons d' t' =>
      simp only [copyOuts, sopFlags, List.map_cons, List.length_cons] at ih ⊢
      rw [ih]
      rfl

/-- The end flag of the COPY outputs marks exactly the last word. -/
theorem copyOuts_eop : ∀ ds : List Nat, ds ≠ [] →
    eopFlags (copyOuts ds) = List.replicate (ds.length - 1) false ++ [true] := by
  intro ds
  induction ds with
  | nil => intro h; exact absurd rfl h
  | cons d t ih =>
    intro _
    cases t with
    | nil => rfl
    | cons d' t' =>
      simp only [copyOuts, eopFlags, List.map_cons, List.length_cons] at ih ⊢
      rw [ih (by simp)]
      rfl

/-- The first accepted tick of a frame: from reset, with the start-of-frame
word pending and downstream ready, the packetizer emits the first header
word with the start flag, loads the shift register and enters SEND_HEADER
without consuming the upstream word. -/
theorem idle_start (cfg : Config) (w : SinkWord) (rest : List SinkWord) (t : Nat)
    (hsop : w.sop = true) :
    runOutputs cfg (initR (w :: rest)) (List.replicate (t + 1) true)
      = ⟨true, true, false, extractBits (encodeHeader cfg.headerType w.meta) 0 cfg.dw, false⟩ ::
        runOutputs cfg ⟨⟨.SEND_HEADER, encodeHeader cfg.headerType w.meta, 0⟩, w :: rest⟩
          (List.replicate t true) := by
  rw [List.replicate_succ]
  simp [runOutputs, tick, presentSink, comb, applySync, initR, hsop]

/-- One ready tick in SEND_HEADER: the next header word is emitted (with the
degenerate end condition), the register shifts, the counter advances, and
the FSM moves to COPY exactly at the threshold; the upstream queue is not
touched. -/
theorem sh_tick (cfg : Config) (R c : Nat) (w : SinkWord) (rest : List SinkWord) :
    tick cfg ⟨⟨.SEND_HEADER, R, c⟩, w :: rest⟩ true
      = (⟨⟨if ((c : Int) == (headerWords cfg : Int) - 2) then .COPY else .SEND_HEADER,
           R / 2 ^ cfg.dw, (c + 1) % 2 ^ counterW cfg⟩, w :: rest⟩,
         some ⟨true, false, w.eop && ((c : Int) == (headerWords cfg : Int) - 2),
               extractBits R cfg.dw cfg.dw, false⟩) := by
  cases hb : ((c : Int) == (headerWords cfg : Int) - 2) <;>
    simp [tick, presentSink, comb, applySync, hb]

/-- A ready SEND_HEADER tick strictly before the threshold: emit the next
header word with no end flag, shift, count up, stay in SEND_HEADER. -/
theorem sh_tick_mid (cfg : Config) (R c : Nat) (w : SinkWord) (rest : List SinkWord)
    (hne : ((c : Int) == (headerWords cfg : Int) - 2) = false) :
    tick cfg ⟨⟨.SEND_HEADER, R, c⟩, w :: rest⟩ true
      = (⟨⟨.SEND_HEADER, R / 2 ^ cfg.dw, (c + 1) % 2 ^ counterW cfg⟩, w :: rest⟩,
         some ⟨true, false, false, extractBits R cfg.dw cfg.dw, false⟩) := by
  simp [tick, presentSink, comb, applySync, hne]

/-- A ready SEND_HEADER tick at the threshold: emit the last header word with
the degenerate end condition `upstream.eop`, shift, count up, go to COPY. -/
theorem sh_tick_last (cfg : Config) (R c : Nat) (w : SinkWord) (rest : List SinkWord)
    (heq : ((c : Int) == (headerWords cfg : Int) - 2) = true) :
    tick cfg ⟨⟨.SEND_HEADER, R, c⟩, w :: rest⟩ true
      = (⟨⟨.COPY, R / 2 ^ cfg.dw, (c + 1) % 2 ^ counterW cfg⟩, w :: rest⟩,
         some ⟨true, false, w.eop, extractBits R cfg.dw cfg.dw, false⟩) := by
  simp [tick, presentSink, comb, applySync, heq]

/-- The SEND_HEADER phase: starting `j` words before the threshold with the
non-end word `w` pending upstream, `j` ready ticks emit the next `j` header
words of the register (all without start or end flags) and leave the machine
in COPY with the register shifted `j` words down, the counter at
`headerWords - 1`, and the upstream untouched. -/
theorem sh_run (cfg : Config) (w : SinkWord) (rest : List SinkWord) (heop : w.eop = false)
    (hwrap : headerWords cfg - 1 < 2 ^ counterW cfg) :
    ∀ (j c R t : Nat), 1 ≤ j → c + j = headerWords cfg - 1 → 2 ≤ headerWords cfg →
      runOutputs cfg ⟨⟨.SEND_HEADER, R, c⟩, w :: rest⟩ (List.replicate (j + t) true)
        = ((List.range j).map fun i =>
            (⟨true, false, false, extractBits R ((i + 1) * cfg.dw) cfg.dw, false⟩ : SourceOut)) ++
          runOutputs cfg ⟨⟨.COPY, R / 2 ^ (j * cfg.dw), headerWords cfg - 1⟩, w :: rest⟩
            (List.replicate t true) := by
  intro j
  induction j with
  | zero => intro c R t h1; exact absurd h1 (by omega)
  | succ j ih =>
    intro c R t h1 hc hw2
    rw [show j + 1 + t = (j + t) + 1 from by omega, List.replicate_succ]
    rcases Nat.eq_zero_or_pos j with hj | hj
    · -- last header word: the counter is at the threshold
      subst hj
      have hceq : ((c : Int) == (headerWords cfg : Int) - 2) = true := by
        simp only [beq_iff_eq]; omega
      have hcnt : (c + 1) % 2 ^ counterW cfg = headerWords cfg - 1 := by
        rw [show c + 1 = headerWords cfg - 1 from by omega]
        exact Nat.mod_eq_of_lt hwrap
      simp only [runOutputs, sh_tick_last cfg R c w rest hceq, Option.toList_some, hcnt, heop]
      simp [List.range_succ, Nat.one_mul]
    · -- strictly before the threshold
      have hceq : ((c : Int) == (headerWords cfg : Int) - 2) = false := by
        simp only [beq_eq_false_iff_ne, ne_eq]
        omega
      have hcnt : (c + 1) % 2 ^ counterW cfg = c + 1 := by
        apply Nat.mod_eq_of_lt
        omega
      simp only [runOutputs, sh_tick_mid cfg R c w rest hceq, Option.toList_some, hcnt]
      rw [ih (c + 1) (R / 2 ^ cfg.dw) t (by omega) (by omega) hw2]
      have hreg : R / 2 ^ cfg.dw / 2 ^ (j * cfg.dw) = R / 2 ^ ((j + 1) * cfg.dw) := by
        rw [Nat.div_div_eq_div_mul, ← pow_add]
        congr 1
        ring
      rw [hreg, List.range_succ_eq_map, List.map_cons, List.map_map, List.cons_append]
      simp only [List.nil_append]
      congr 1
      · congr 1
        rw [Nat.zero_add, Nat.one_mul]
      · congr 1
        apply List.map_congr_left
        intro i _
        simp only [Function.comp_apply]
        congr 1
        rw [extractBits_div]
        congr 1
        simp only [Nat.succ_eq_add_one]
        ring

/-- A ready COPY tick: forward the pending word verbatim, consume it, and
return to IDLE exactly when it carried end-of-frame. -/
theorem copy_tick (cfg : Config) (R c : Nat) (w : SinkWord) (rest : List SinkWord) :
    tick cfg ⟨⟨.COPY, R, c⟩, w :: rest⟩ true
      = (⟨⟨if w.eop then .IDLE else .COPY, R, c⟩, rest⟩,
         some ⟨true, false, w.eop, w.data, w.error⟩) := by
  cases he : w.eop <;> simp [tick, presentSink, comb, applySync, he]

/-- The COPY phase: with the whole frame still pending upstream, one ready
tick per word forwards every payload word (end flag on the last) and drains
the queue. -/
theorem copy_run (cfg : Config) (meta : String → Nat) :
    ∀ (ds : List Nat) (first : Bool) (R c : Nat), ds ≠ [] →
      runOutputs cfg ⟨⟨.COPY, R, c⟩, frameWords meta first ds⟩
          (List.replicate ds.length true)
        = copyOuts ds := by
  intro ds
  induction ds with
  | nil => intro first R c h; exact absurd rfl h
  | cons d t ih =>
    intro first R c _
    cases t with
    | nil =>
      rw [show frameWords meta first [d] = [⟨d, first, true, false, meta⟩] from rfl,
          show ([d] : List Nat).length = 0 + 1 from rfl, List.replicate_succ]
      simp only [runOutputs, copy_tick, Option.toList_some]
      simp [copyOuts]
    | cons d' t' =>
      rw [show frameWords meta first (d :: d' :: t')
            = ⟨d, first, false, false, meta⟩ :: frameWords meta false (d' :: t') from rfl,
          show (d :: d' :: t').length = (d' :: t').length + 1 from rfl, List.replicate_succ,
          show copyOuts (d :: d' :: t')
            = (⟨true, false, false, d, false⟩ : SourceOut) :: copyOuts (d' :: t') from rfl,
          ← ih false R c (by simp)]
      simp only [runOutputs, copy_tick, Option.toList_some]
      simp

/-- Flat-mapping a byte function over the COPY outputs' data is flat-mapping
it over the payload values. -/
theorem copyOuts_flatMap (g : Nat → List Nat) : ∀ ds : List Nat,
    (copyOuts ds).flatMap (fun o => g o.data) = ds.flatMap g := by
  intro ds
  induction ds with
  | nil => rfl
  | cons d t ih =>
    cases t with
    | nil => simp [copyOuts]
    | cons d' t' =>
      simp only [copyOuts, List.flatMap_cons] at ih ⊢
      rw [ih]

/-- `sopFlags` distributes over cons. -/
theorem sopFlags_cons (o : SourceOut) (os : List SourceOut) :
    sopFlags (o :: os) = o.sop :: sopFlags os := rfl

/-- `sopFlags` distributes over append. -/
theorem sopFlags_append (l1 l2 : List SourceOut) :
    sopFlags (l1 ++ l2) = sopFlags l1 ++ sopFlags l2 := List.map_append _ l1 l2

/-- `eopFlags` distributes over cons. -/
theorem eopFlags_cons (o : SourceOut) (os : List SourceOut) :
    eopFlags (o :: os) = o.eop :: eopFlags os := rfl

/-- `eopFlags` distributes over append. -/
theorem eopFlags_append (l1 l2 : List SourceOut) :
    eopFlags (l1 ++ l2) = eopFlags l1 ++ eopFlags l2 := List.map_append _ l1 l2

/-- Header words carry no start flag. -/
theorem sopFlags_word_map (g : Nat → Nat) (j : Nat) :
    sopFlags ((List.range j).map fun i => (⟨true, false, false, g i, false⟩ : SourceOut))
      = List.replicate j false := by
  unfold sopFlags
  rw [List.map_map,
      show ((fun (o : SourceOut) => o.sop) ∘ fun i =>
        (⟨true, false, false, g i, false⟩ : SourceOut)) = fun _ => false from rfl,
      List.map_const', List.length_range]

/-- Header words emitted mid-phase carry no end flag. -/
theorem eopFlags_word_map (g : Nat → Nat) (j : Nat) :
    eopFlags ((List.range j).map fun i => (⟨true, false, false, g i, false⟩ : SourceOut))
      = List.replicate j false := by
  unfold eopFlags
  rw [List.map_map,
      show ((fun (o : SourceOut) => o.eop) ∘ fun i =>
        (⟨true, false, false, g i, false⟩ : SourceOut)) = fun _ => false from rfl,
      List.map_const', List.length_range]

/-- The bytes of the first header word followed by the bytes of the remaining
`n-1` shifted header words are the `n * wB` header bytes. -/
theorem headerBytesJoin (wB n H : Nat) (hn : 1 ≤ n) :
    toBytes wB (extractBits H 0 (8 * wB)) ++
      ((List.range (n - 1)).flatMap fun i =>
        toBytes wB (extractBits H ((i + 1) * (8 * wB)) (8 * wB)))
      = toBytes (n * wB) H := by
  obtain ⟨m, rfl⟩ : ∃ m, n = m + 1 := ⟨n - 1, by omega⟩
  rw [← wordsBytes wB (m + 1) H, List.range_succ_eq_map, List.flatMap_cons, List.flatMap_map]
  simp only [Nat.add_sub_cancel, Nat.zero_mul, Nat.succ_eq_add_one]

/-- C1, amended: for every configuration with `headerWords ≥ 2`, a word width
divisible by 8 and a header bit length equal to `headerWords * W`, every
metadata record, and every payload of at least TWO words, the always-valid /
always-ready run emits, as bytes, exactly the encoded header bytes followed
by the payload bytes, with the start flag true only on the first emitted
word and the end flag true only on the last. -/
theorem C1_framing (cfg : Config) (meta : String → Nat) (ds : List Nat)
    (h8 : 8 ∣ cfg.dw) (hdiv : cfg.headerLength * 8 = headerWords cfg * cfg.dw)
    (hn : 2 ≤ headerWords cfg) (hm : 2 ≤ ds.length) :
    outBytes cfg (runOutputs cfg (initR (mkFrame meta ds))
        (List.replicate (headerWords cfg + ds.length) true))
      = toBytes cfg.headerLength (encodeHeader cfg.headerType meta)
          ++ ds.flatMap (toBytes (cfg.dw / 8)) ∧
    sopFlags (runOutputs cfg (initR (mkFrame meta ds))
        (List.replicate (headerWords cfg + ds.length) true))
      = true :: List.replicate (headerWords cfg + ds.length - 1) false ∧
    eopFlags (runOutputs cfg (initR (mkFrame meta ds))
        (List.replicate (headerWords cfg + ds.length) true))
      = List.replicate (headerWords cfg + ds.length - 1) false ++ [true] := by
  obtain ⟨wB, hdw⟩ := h8
  rcases ds with _ | ⟨d0, ds1⟩
  · simp at hm
  rcases ds1 with _ | ⟨d1, t⟩
  · simp at hm
  have hfw : mkFrame meta (d0 :: d1 :: t)
      = (⟨d0, true, false, false, meta⟩ : SinkWord) :: frameWords meta false (d1 :: t) := rfl
  have hticks : headerWords cfg + (d0 :: d1 :: t).length
      = ((headerWords cfg - 1) + (t.length + 2)) + 1 := by
    simp only [List.length_cons]
    omega
  have hrun : runOutputs cfg (initR (mkFrame meta (d0 :: d1 :: t)))
      (List.replicate (headerWords cfg + (d0 :: d1 :: t).length) true)
    = (⟨true, true, false,
          extractBits (encodeHeader cfg.headerType meta) 0 cfg.dw, false⟩ : SourceOut) ::
      (((List.range (headerWords cfg - 1)).map fun i =>
          (⟨true, false, false,
             extractBits (encodeHeader cfg.headerType meta) ((i + 1) * cfg.dw) cfg.dw,
             false⟩ : SourceOut)) ++
        copyOuts (d0 :: d1 :: t)) := by
    rw [hticks, hfw,
        idle_start cfg ⟨d0, true, false, false, meta⟩ (frameWords meta false (d1 :: t))
          ((headerWords cfg - 1) + (t.length + 2)) rfl]
    congr 1
    rw [sh_run cfg ⟨d0, true, false, false, meta⟩ (frameWords meta false (d1 :: t)) rfl
        (lt_two_pow_bitsLen _) (headerWords cfg - 1) 0
        (encodeHeader cfg.headerType (⟨d0, true, false, false, meta⟩ : SinkWord).meta)
        (t.length + 2) (by omega) (by omega) hn]
    congr 1
    exact copy_run cfg meta (d0 :: d1 :: t) true _ _ (by simp)
  refine ⟨?_, ?_, ?_⟩
  · -- the byte stream is header bytes then payload bytes
    rw [hrun]
    simp only [outBytes, List.flatMap_cons, List.flatMap_append, List.flatMap_map]
    rw [copyOuts_flatMap (toBytes (cfg.dw / 8)) (d0 :: d1 :: t), ← List.append_assoc]
    congr 1
    have hwB : cfg.dw / 8 = wB := by rw [hdw]; omega
    have hhb : cfg.headerLength = headerWords cfg * wB := by
      have h1 : cfg.headerLength * 8 = headerWords cfg * wB * 8 := by
        rw [hdiv, hdw]; ring
      exact Nat.eq_of_mul_eq_mul_right (by norm_num) h1
    rw [hwB, hhb, hdw,
        ← headerBytesJoin wB (headerWords cfg) (encodeHeader cfg.headerType meta) (by omega)]
  · -- start only on the first word
    rw [hrun, sopFlags_cons, sopFlags_append, sopFlags_word_map, copyOuts_sop,
        ← List.replicate_add]
    congr 2
    simp only [List.length_cons]
    omega
  · -- end only on the last word
    rw [hrun, eopFlags_cons, eopFlags_append, eopFlags_word_map,
        copyOuts_eop _ (by simp), ← List.append_assoc, ← List.cons_append,
        ← List.replicate_add, ← List.replicate_succ]
    congr 2
    simp only [List.length_cons]
    omega

/-- C1, counterexample: with the 3-byte test header and a payload of exactly
one byte (length ≥ W/8 = 1, as the claim as stated allows), the end flag is
NOT true only on the last emitted word: the run emits end on the final
header word (the degenerate SendHeader end condition) and again on the
forwarded payload word. -/
theorem C1_counterexample :
    1 ≤ ([0xCC] : List Nat).length ∧
    eopFlags (runOutputs testCfg (initR (mkFrame testMeta [0xCC]))
        (List.replicate (headerWords testCfg + ([0xCC] : List Nat).length) true))
      ≠ List.replicate (headerWords testCfg + ([0xCC] : List Nat).length - 1) false ++ [true] :=
  ⟨by decide, by decide⟩

/-- C1, witness: the framing theorem at the 3-byte test header with the
two-byte payload 0xAA 0xBB. -/
theorem C1_framing_witness :
    (8 ∣ testCfg.dw) ∧ (testCfg.headerLength * 8 = headerWords testCfg * testCfg.dw) ∧
    (2 ≤ headerWords testCfg) ∧ (2 ≤ ([0xAA, 0xBB] : List Nat).length) ∧
    (outBytes testCfg (runOutputs testCfg (initR (mkFrame testMeta [0xAA, 0xBB]))
        (List.replicate (headerWords testCfg + ([0xAA, 0xBB] : List Nat).length) true))
      = toBytes testCfg.headerLength (encodeHeader testCfg.headerType testMeta)
          ++ ([0xAA, 0xBB] : List Nat).flatMap (toBytes (testCfg.dw / 8)) ∧
     sopFlags (runOutputs testCfg (initR (mkFrame testMeta [0xAA, 0xBB]))
        (List.replicate (headerWords testCfg + ([0xAA, 0xBB] : List Nat).length) true))
      = true :: List.replicate (headerWords testCfg + ([0xAA, 0xBB] : List Nat).length - 1) false ∧
     eopFlags (runOutputs testCfg (initR (mkFrame testMeta [0xAA, 0xBB]))
        (List.replicate (headerWords testCfg + ([0xAA, 0xBB] : List Nat).length) true))
      = List.replicate (headerWords testCfg + ([0xAA, 0xBB] : List Nat).length - 1) false ++ [true]) :=
  ⟨by decide, by decide, by decide, by decide,
   C1_framing testCfg testMeta [0xAA, 0xBB] (by decide) (by decide) (by decide) (by decide)⟩

/-- `Rrel` is reflexive. -/
theorem Rrel_refl (r : RState) : Rrel r r := ⟨rfl, rfl, rfl, Or.inr rfl⟩

/-- `Rrel` is transitive. -/
theorem Rrel_trans {a b c : RState} (h1 : Rrel a b) (h2 : Rrel b c) : Rrel a c := by
  obtain ⟨f1, r1, q1, c1⟩ := h1
  obtain ⟨f2, r2, q2, c2⟩ := h2
  refine ⟨f1.trans f2, r1.trans r2, q1.trans q2, ?_⟩
  rcases c1 with h | h
  · exact Or.inl h
  · rcases c2 with h' | h'
    · exact Or.inl (f1.trans h')
    · exact Or.inr (h.trans h')

/-- Ticks preserve `Rrel` and produce identical emissions: the counter value
is never read in IDLE (which also resets it), and outside IDLE related
states are componentwise equal. -/
theorem tick_congr (cfg : Config) (r r' : RState) (b : Bool) (h : Rrel r r') :
    (tick cfg r b).2 = (tick cfg r' b).2 ∧ Rrel (tick cfg r b).1 (tick cfg r' b).1 := by
  obtain ⟨⟨f1, R1, c1⟩, q1⟩ := r
  obtain ⟨⟨f2, R2, c2⟩, q2⟩ := r'
  obtain ⟨hf, hR, hq, hc⟩ := h
  simp only at hf hR hq hc
  subst hf hR hq
  cases f1 with
  | IDLE =>
    cases hsp : (presentSink q1).stb && (presentSink q1).sop <;>
      · constructor
        · simp [tick, comb, applySync, hsp]
        · refine ⟨?_, ?_, ?_, Or.inr ?_⟩ <;> simp [tick, comb, applySync, hsp]
  | SEND_HEADER =>
    rcases hc with h | h
    · cases h
    · subst h
      exact ⟨rfl, Rrel_refl _⟩
  | COPY =>
    rcases hc with h | h
    · cases h
    · subst h
      exact ⟨rfl, Rrel_refl _⟩

/-- A tick with downstream ready deasserted emits nothing, and either leaves
the state in the same `Rrel` class (pure stall) or coincides with the
ready tick, which is itself silent (IDLE consuming a non-start word). -/
theorem tick_stall (cfg : Config) (r : RState) :
    (tick cfg r false).2 = none ∧
    (Rrel (tick cfg r false).1 r ∨
      ((tick cfg r false).1 = (tick cfg r true).1 ∧ (tick cfg r true).2 = none)) := by
  obtain ⟨⟨f, R, c⟩, q⟩ := r
  cases f with
  | IDLE =>
    cases hsp : (presentSink q).stb && (presentSink q).sop
    · refine ⟨?_, Or.inr ⟨?_, ?_⟩⟩ <;> simp [tick, comb, applySync, hsp]
    · refine ⟨?_, Or.inl ?_⟩
      · simp [tick, comb, applySync, hsp]
      · refine ⟨?_, ?_, ?_, Or.inl ?_⟩ <;> simp [tick, comb, applySync, hsp]
  | SEND_HEADER =>
    refine ⟨?_, Or.inl ?_⟩
    · simp [tick, comb, applySync]
    · refine ⟨?_, ?_, ?_, Or.inr ?_⟩ <;> simp [tick, comb, applySync]
  | COPY =>
    refine ⟨?_, Or.inl ?_⟩
    · simp [tick, comb, applySync]
    · refine ⟨?_, ?_, ?_, Or.inr ?_⟩ <;> simp [tick, comb, applySync]

/-- `FrontSeg` is reflexive. -/
theorem FrontSeg_refl {α : Type} (l : List α) : FrontSeg l l := ⟨[], List.append_nil l⟩

/-- `FrontSeg` is transitive. -/
theorem FrontSeg_trans {α : Type} {a b c : List α} (h1 : FrontSeg a b) (h2 : FrontSeg b c) :
    FrontSeg a c := by
  obtain ⟨t1, e1⟩ := h1
  obtain ⟨t2, e2⟩ := h2
  exact ⟨t1 ++ t2, by rw [← List.append_assoc, e1, e2]⟩

/-- Two initial segments of a common list are comparable. -/
theorem append_eq_comparable {α : Type} :
    ∀ (l1 l2 t1 t2 : List α), l1 ++ t1 = l2 ++ t2 → FrontSeg l1 l2 ∨ FrontSeg l2 l1 := by
  intro l1
  induction l1 with
  | nil => intro l2 t1 t2 _; exact Or.inl ⟨l2, rfl⟩
  | cons a l1 ih =>
    intro l2 t1 t2 h
    cases l2 with
    | nil => exact Or.inr ⟨a :: l1, rfl⟩
    | cons b l2 =>
      simp only [List.cons_append, List.cons.injEq] at h
      obtain ⟨hab, ht⟩ := h
      subst hab
      rcases ih l2 t1 t2 ht with ⟨u, hu⟩ | ⟨u, hu⟩
      · exact Or.inl ⟨u, by rw [List.cons_append, hu]⟩
      · exact Or.inr ⟨u, by rw [List.cons_append, hu]⟩

/-- One more all-ready tick only extends the emitted stream. -/
theorem run_mono (cfg : Config) : ∀ (k : Nat) (r : RState),
    FrontSeg (runOutputs cfg r (List.replicate k true))
      (runOutputs cfg r (List.replicate (k + 1) true)) := by
  intro k
  induction k with
  | zero => intro r; exact ⟨runOutputs cfg r (List.replicate 1 true), by simp [runOutputs]⟩
  | succ k ih =>
    intro r
    rw [List.replicate_succ, List.replicate_succ (n := k + 1)]
    obtain ⟨t, ht⟩ := ih (tick cfg r true).1
    exact ⟨t, by simp only [runOutputs, List.append_assoc, ht]⟩

/-- More all-ready ticks only extend the emitted stream. -/
theorem run_mono_le (cfg : Config) (r : RState) : ∀ (j k : Nat), j ≤ k →
    FrontSeg (runOutputs cfg r (List.replicate j true))
      (runOutputs cfg r (List.replicate k true)) := by
  intro j k
  induction k with
  | zero => intro h; rw [show j = 0 from by omega]; exact FrontSeg_refl _
  | succ k ih =>
    intro h
    rcases Nat.lt_or_ge j (k + 1) with h' | h'
    · exact FrontSeg_trans (ih (by omega)) (run_mono cfg k r)
    · rw [show j = k + 1 from by omega]
      exact FrontSeg_refl _

/-- Main backpressure lemma: under any downstream ready pattern, the emitted
stream is an initial segment of the always-ready run of the same length
from any `Rrel`-related state. -/
theorem run_frontseg (cfg : Config) : ∀ (p : List Bool) (r r' : RState), Rrel r r' →
    FrontSeg (runOutputs cfg r p) (runOutputs cfg r' (List.replicate p.length true)) := by
  intro p
  induction p with
  | nil => intro r r' _; exact FrontSeg_refl []
  | cons b bs ih =>
    intro r r' hrel
    rw [show (b :: bs).length = bs.length + 1 from rfl, List.replicate_succ]
    cases b
    · obtain ⟨hnone, hcase⟩ := tick_stall cfg r
      have e1 : runOutputs cfg r (false :: bs)
          = runOutputs cfg (tick cfg r false).1 bs := by
        rw [show runOutputs cfg r (false :: bs)
              = ((tick cfg r false).2).toList ++ runOutputs cfg (tick cfg r false).1 bs from rfl,
            hnone]
        rfl
      rcases hcase with hR | ⟨heq, hnoneT⟩
      · have h2 := ih (tick cfg r false).1 r' (Rrel_trans hR hrel)
        rw [e1]
        refine FrontSeg_trans h2 ?_
        rw [← List.replicate_succ]
        exact run_mono cfg bs.length r'
      · obtain ⟨hemitT, hnextT⟩ := tick_congr cfg r r' true hrel
        have e2 : runOutputs cfg r' (true :: List.replicate bs.length true)
            = runOutputs cfg (tick cfg r' true).1 (List.replicate bs.length true) := by
          rw [show runOutputs cfg r' (true :: List.replicate bs.length true)
                = ((tick cfg r' true).2).toList
                    ++ runOutputs cfg (tick cfg r' true).1 (List.replicate bs.length true) from rfl,
              ← hemitT, hnoneT]
          rfl
        rw [e1, heq, e2]
        exact ih _ _ hnextT
    · obtain ⟨hemitT, hnextT⟩ := tick_congr cfg r r' true hrel
      rw [show runOutputs cfg r (true :: bs)
            = ((tick cfg r true).2).toList ++ runOutputs cfg (tick cfg r true).1 bs from rfl,
          show runOutputs cfg r' (true :: List.replicate bs.length true)
            = ((tick cfg r' true).2).toList
                ++ runOutputs cfg (tick cfg r' true).1 (List.replicate bs.length true) from rfl,
          ← hemitT]
      obtain ⟨tl, htl⟩ := ih _ _ hnextT
      exact ⟨tl, by rw [List.append_assoc, htl]⟩

/-- C9: backpressure invariance — for a fixed upstream frame, the emitted
word streams of any two runs that differ only in the downstream ready
pattern agree on their common length: one is an initial segment of the
other, so content never depends on the ready pattern, only the number of
idle cycles does. -/
theorem C9_backpressure_invariance (cfg : Config) (frame : List SinkWord)
    (p1 p2 : List Bool) :
    FrontSeg (runOutputs cfg (initR frame) p1) (runOutputs cfg (initR frame) p2) ∨
    FrontSeg (runOutputs cfg (initR frame) p2) (runOutputs cfg (initR frame) p1) := by
  have h1 : FrontSeg (runOutputs cfg (initR frame) p1)
      (runOutputs cfg (initR frame) (List.replicate (max p1.length p2.length) true)) :=
    FrontSeg_trans (run_frontseg cfg p1 _ _ (Rrel_refl _))
      (run_mono_le cfg _ p1.length _ (by omega))
  have h2 : FrontSeg (runOutputs cfg (initR frame) p2)
      (runOutputs cfg (initR frame) (List.replicate (max p1.length p2.length) true)) :=
    FrontSeg_trans (run_frontseg cfg p2 _ _ (Rrel_refl _))
      (run_mono_le cfg _ p2.length _ (by omega))
  obtain ⟨t1, e1⟩ := h1
  obtain ⟨t2, e2⟩ := h2
  exact append_eq_comparable _ _ t1 t2 (e1.trans e2.symm)
